import Mathlib

/-!
Verification of the watex lexer core (`src/lexer.rs`, `src/util.rs`,
`src/structures.rs`) against its natural-language specification.

The Rust code is shallowly embedded: the character stream is a `List Char`
(Rust `String` buffers are accumulated as `List Char` and converted with
`String.mk` where the source stores a `String`), `usize` is a `Nat` bounded
by `2 ^ 64 - 1` (64-bit platform), iterator `next` returning `Option`, and a
Rust panic is an `Except.error` carrying the panic message.

In the Rust lexer every consumed character is a `Pos<char>` and the emitted
token is wrapped in `Pos` with the coordinates of the character that
triggered the dispatch; classification and collection depend only on the
`val` components.  The token-level embedding therefore works on the plain
character stream, and the two position trackers (`PosChars` of `util.rs`
and of `lexer.rs`) are modeled separately.
-/

/-- The NUL character `'\0'`. -/
def NUL : Char := Char.ofNat 0

/-- Rust `char::is_whitespace`: the Unicode `White_Space` property
(U+0009..U+000D, U+0020, U+0085, U+00A0, U+1680, U+2000..U+200A, U+2028,
U+2029, U+202F, U+205F, U+3000). -/
def is_whitespace (c : Char) : Bool :=
  (0x09 ≤ c.toNat && c.toNat ≤ 0x0D) || c.toNat = 0x20 || c.toNat = 0x85 ||
  c.toNat = 0xA0 || c.toNat = 0x1680 ||
  (0x2000 ≤ c.toNat && c.toNat ≤ 0x200A) || c.toNat = 0x2028 ||
  c.toNat = 0x2029 || c.toNat = 0x202F || c.toNat = 0x205F || c.toNat = 0x3000

/-- Rust `char::is_ascii_alphabetic`: `'A'..='Z' | 'a'..='z'`. -/
def is_ascii_alphabetic (c : Char) : Bool :=
  (0x41 ≤ c.toNat && c.toNat ≤ 0x5A) || (0x61 ≤ c.toNat && c.toNat ≤ 0x7A)

/-- Rust `char::is_ascii_digit`: `'0'..='9'`. -/
def is_ascii_digit (c : Char) : Bool :=
  0x30 ≤ c.toNat && c.toNat ≤ 0x39

/-- `enum Brace { Left, Right }` of `lexer.rs` (called `Side` in
`structures.rs`). -/
inductive Side where
  | Left
  | Right
deriving DecidableEq, Repr

/-- `enum Token` of `lexer.rs`: `Command(String)`, `Brace(Brace)`,
`Arg(usize)`, `Ampersand`, `Whitespace(String)`, `Comment(String)`,
`Char(char)`, `Eof`, `Illegal`.  (`structures.rs`, a later data-model
revision with no lexer attached, renames `Command` to `Control` and
`Illegal` to `Err(Error::IllegalChar(char))`.) -/
inductive Token where
  | Command (s : String)
  | Brace (side : Side)
  | Arg (n : Nat)
  | Ampersand
  | Whitespace (s : String)
  | Comment (s : String)
  | Char (c : Char)
  | Eof
  | Illegal
deriving DecidableEq, Repr

/-- Does a token belong to the `Whitespace` variant? -/
def Token.isWsTok : Token → Bool
  | .Whitespace _ => true
  | _ => false

/-- Maximum value of Rust `usize` on the 64-bit reference platform. -/
def USIZE_MAX : Nat := 2 ^ 64 - 1

/-- Base-10 value of a list of ASCII digit characters. -/
def decimalValue (ds : List Char) : Nat :=
  ds.foldl (fun acc c => 10 * acc + (c.toNat - 0x30)) 0

/-- Rust `str::parse::<usize>()` restricted to the buffers that occur here
(which never carry a leading `+` sign): succeeds exactly on a non-empty
all-ASCII-digit string whose value fits in `usize`; `none` models `Err`. -/
def parse_usize (s : List Char) : Option Nat :=
  if s ≠ [] ∧ s.all is_ascii_digit = true ∧ decimalValue s ≤ USIZE_MAX then
    some (decimalValue s)
  else none

/-- The message of the `expect` in `Lexer::collect_arg`. -/
def expectMsg : String := "`buffer` should only contain ASCII digits."

/-- Continuation predicate of `Lexer::build_comment`:
`ch.val != '\n' && ch.val != '\0'`. -/
def comment_pred (c : Char) : Bool := c ≠ '\n' && c ≠ NUL

/-- `Lexer::build_comment`: consume characters while `comment_pred` holds,
appending them to `buffer`; the delimiter (if any) is left unconsumed.
Returns the buffer and the remaining stream. -/
def build_comment (buffer : List Char) : List Char → List Char × List Char
  | [] => (buffer, [])
  | c :: rest =>
    if comment_pred c then build_comment (buffer ++ [c]) rest
    else (buffer, c :: rest)

/-- `Lexer::collect_command`: push `current`, then keep consuming while the
next character `is_ascii_alphabetic`. -/
def collect_command (current : Char) (buffer : List Char) :
    List Char → List Char × List Char
  | [] => (buffer ++ [current], [])
  | c :: rest =>
    if is_ascii_alphabetic c then collect_command c (buffer ++ [current]) rest
    else (buffer ++ [current], c :: rest)

/-- `Lexer::collect_arg`: push `current`, keep consuming while the next
character `is_ascii_digit`, then `buffer.parse::<usize>()` — `none` in the
first component models the `expect` panic path. -/
def collect_arg (current : Char) (buffer : List Char) :
    List Char → Option Nat × List Char
  | [] => (parse_usize (buffer ++ [current]), [])
  | c :: rest =>
    if is_ascii_digit c then collect_arg c (buffer ++ [current]) rest
    else (parse_usize (buffer ++ [current]), c :: rest)

/-- `Lexer::collect_whitespace`: push `current`, keep consuming while the
next character `is_whitespace`. -/
def collect_whitespace (current : Char) (buffer : List Char) :
    List Char → List Char × List Char
  | [] => (buffer ++ [current], [])
  | c :: rest =>
    if is_whitespace c then collect_whitespace c (buffer ++ [current]) rest
    else (buffer ++ [current], c :: rest)

/-- The classification dispatch of `Lexer::next_token` on an already-consumed
character `ch` with remaining stream `rest`.  `Except.error` models the panic
inside `collect_arg`. -/
def dispatch (ch : Char) (rest : List Char) :
    Except String (Token × List Char) :=
  if ch = '{' then .ok (.Brace .Left, rest)
  else if ch = '}' then .ok (.Brace .Right, rest)
  else if ch = '&' then .ok (.Ampersand, rest)
  else if ch = NUL then .ok (.Eof, rest)
  else if ch = '\\' then
    match rest with
    | [] => .ok (.Command "", [])
    | n :: rest2 =>
      let r := collect_command n [] rest2
      .ok (.Command (String.mk r.1), r.2)
  else if ch = '%' then
    let r := build_comment [] rest
    .ok (.Comment (String.mk r.1), r.2)
  else if ch = '#' then
    match rest with
    | [] => .ok (.Illegal, [])
    | n :: rest2 =>
      if is_ascii_digit n then
        match collect_arg n [] rest2 with
        | (some v, rest3) => .ok (.Arg v, rest3)
        | (none, _) => .error expectMsg
      else .ok (.Illegal, rest2)
  else if is_whitespace ch then
    let r := collect_whitespace ch [] rest
    .ok (.Whitespace (String.mk r.1), r.2)
  else .ok (.Char ch, rest)

/-- `Lexer::next_token`: `None` at stream exhaustion, otherwise consume one
character and dispatch on it. -/
def next_token (cs : List Char) : Option (Except String (Token × List Char)) :=
  match cs with
  | [] => none
  | ch :: rest => some (dispatch ch rest)

/-- Iterating `Lexer::next` until exhaustion, with explicit fuel (each
produced token consumes at least one character, so `cs.length` fuel is always
enough — see `lex_cons`).  An `Except.error` (panic) aborts the stream. -/
def lexF : Nat → List Char → Except String (List Token)
  | 0, _ => Except.ok []
  | fuel + 1, cs =>
    match next_token cs with
    | none => Except.ok []
    | some (Except.error e) => Except.error e
    | some (Except.ok (t, rest)) =>
      match lexF fuel rest with
      | Except.error e => Except.error e
      | Except.ok ts => Except.ok (t :: ts)

/-- The full token stream of an input (the caller pulling `Lexer::next`
until `None`): `ok` with the token list, or `error` if a panic occurred. -/
def lex (cs : List Char) : Except String (List Token) := lexF cs.length cs

/-- `Span` of `structures.rs`: `lin` and `col` fields (1-indexed). -/
structure Span where
  lin : Nat
  col : Nat
deriving DecidableEq, Repr

/-- One step of `PosChars::next` from `util.rs`: emit the current
`Span::new(lin, col)`, then update `lin = 1; col += 1` on `'\n'` and
`lin += 1` otherwise. -/
def utilPosNext (lin col : Nat) (ch : Char) : Span × Nat × Nat :=
  (⟨lin, col⟩, if ch = '\n' then (1, col + 1) else (lin + 1, col))

/-- Running the `util.rs` `PosChars` over a stream from state `(lin, col)`. -/
def utilPosList : List Char → Nat → Nat → List (Char × Span)
  | [], _, _ => []
  | c :: cs, lin, col =>
    let s := utilPosNext lin col c
    (c, s.1) :: utilPosList cs s.2.1 s.2.2

/-- The `util.rs` `PosChars` started at `lin = 1, col = 1`
(`WithPosChars::with_pos`). -/
def utilPosChars (cs : List Char) : List (Char × Span) := utilPosList cs 1 1

/-- One step of `PosChars::next` from `lexer.rs`: emit the current `(x, y)`,
then update `x = 1; y += 1` on `'\n'` and `x += 1` otherwise (so `x` is the
column and `y` the line). -/
def lexerPosNext (x y : Nat) (ch : Char) : (Nat × Nat) × Nat × Nat :=
  ((x, y), if ch = '\n' then (1, y + 1) else (x + 1, y))

/-- Running the `lexer.rs` `PosChars` over a stream from state `(x, y)`. -/
def lexerPosList : List Char → Nat → Nat → List (Char × Nat × Nat)
  | [], _, _ => []
  | c :: cs, x, y =>
    let s := lexerPosNext x y c
    (c, s.1) :: lexerPosList cs s.2.1 s.2.2

/-- The `lexer.rs` `PosChars` started at `x = 1, y = 1`
(`CreatePosChars::with_pos`). -/
def lexerPosChars (cs : List Char) : List (Char × Nat × Nat) :=
  lexerPosList cs 1 1

/-- Neither `PosChars` (in `util.rs` or in `lexer.rs`) overrides
`Iterator::size_hint`; the Rust default implementation returns `(0, None)`
for every iterator.  The argument is the hint of the wrapped source, which the
default implementation ignores. -/
def posCharsSizeHint (srcHint : Nat × Option Nat) : Nat × Option Nat :=
  (0, none)

/-- `Lexer::size_hint` from `lexer.rs`: given the hint `(chars_min,
chars_max)` of the buffered `Peekable<PosChars<I>>` stream, report
`(0, chars_max)` if `chars_min == 0` and `(1, chars_max)` otherwise. -/
def lexerSizeHint (charsHint : Nat × Option Nat) : Nat × Option Nat :=
  if charsHint.1 = 0 then (0, charsHint.2) else (1, charsHint.2)

/-- Remove a single trailing `'\r'` (Rust `str::lines` strips it from a line
that was terminated by `'\n'`). -/
def stripCr (l : List Char) : List Char :=
  if l.getLast? = some '\r' then l.dropLast else l

/-- Rust `str::lines()`: split at `'\n'`; every `'\n'`-terminated segment has
an immediately preceding `'\r'` stripped; a final segment not terminated by
`'\n'` is kept verbatim; a final line ending produces no extra empty line. -/
def rustLines (code : List Char) : List (List Char) :=
  let segs := code.splitOn '\n'
  segs.dropLast.map stripCr ++
    (match segs.getLast? with
     | some l => if l.isEmpty then [] else [l]
     | none => [])

/-- The loop body of `Span::highlight_msg_in_code`: append each line followed
by `"\n"`, and right after the line with 1-based index `lin` append
`col - 1` spaces, `'^'`, `' '`, the message, and `"\n"`. -/
def highlightGo (lin col : Nat) (msg : List Char) :
    Nat → List (List Char) → List Char
  | _, [] => []
  | i, line :: ls =>
    line ++ '\n' ::
      ((if i = lin then
          List.replicate (col - 1) ' ' ++ '^' :: ' ' :: (msg ++ ['\n'])
        else []) ++ highlightGo lin col msg (i + 1) ls)

/-- `Span::highlight_msg_in_code` from `structures.rs` (strings as
`List Char`). -/
def highlight_msg_in_code (sp : Span) (code msg : List Char) : List Char :=
  highlightGo sp.lin sp.col msg 1 (rustLines code)

/-- Concatenate lines, each followed by `'\n'` (used only to state the
diagnostic-rendering theorem). -/
def joinLines (ls : List (List Char)) : List Char :=
  ls.foldr (fun l acc => l ++ '\n' :: acc) []

/-- `build_comment` takes the longest `comment_pred` prefix and leaves the rest. -/
theorem build_comment_eq : ∀ (cs b : List Char),
    build_comment b cs = (b ++ cs.takeWhile comment_pred, cs.dropWhile comment_pred)
  | [], b => by simp [build_comment]
  | c :: rest, b => by
    by_cases h : comment_pred c
    · simp [build_comment, h, List.takeWhile_cons, List.dropWhile_cons,
        build_comment_eq rest (b ++ [c])]
    · simp [build_comment, h, List.takeWhile_cons, List.dropWhile_cons]

/-- `collect_command` collects `current` plus the longest alphabetic prefix. -/
theorem collect_command_eq : ∀ (cs : List Char) (c : Char) (b : List Char),
    collect_command c b cs =
      (b ++ c :: cs.takeWhile is_ascii_alphabetic, cs.dropWhile is_ascii_alphabetic)
  | [], c, b => by simp [collect_command]
  | x :: rest, c, b => by
    by_cases h : is_ascii_alphabetic x
    · simp [collect_command, h, List.takeWhile_cons, List.dropWhile_cons,
        collect_command_eq rest x (b ++ [c])]
    · simp [collect_command, h, List.takeWhile_cons, List.dropWhile_cons]

/-- `collect_arg` parses `current` plus the longest digit prefix. -/
theorem collect_arg_eq : ∀ (cs : List Char) (c : Char) (b : List Char),
    collect_arg c b cs =
      (parse_usize (b ++ c :: cs.takeWhile is_ascii_digit), cs.dropWhile is_ascii_digit)
  | [], c, b => by simp [collect_arg]
  | x :: rest, c, b => by
    by_cases h : is_ascii_digit x
    · simp [collect_arg, h, List.takeWhile_cons, List.dropWhile_cons,
        collect_arg_eq rest x (b ++ [c])]
    · simp [collect_arg, h, List.takeWhile_cons, List.dropWhile_cons]

/-- `collect_whitespace` collects `current` plus the longest whitespace prefix. -/
theorem collect_whitespace_eq : ∀ (cs : List Char) (c : Char) (b : List Char),
    collect_whitespace c b cs =
      (b ++ c :: cs.takeWhile is_whitespace, cs.dropWhile is_whitespace)
  | [], c, b => by simp [collect_whitespace]
  | x :: rest, c, b => by
    by_cases h : is_whitespace x
    · simp [collect_whitespace, h, List.takeWhile_cons, List.dropWhile_cons,
        collect_whitespace_eq rest x (b ++ [c])]
    · simp [collect_whitespace, h, List.takeWhile_cons, List.dropWhile_cons]

theorem dispatch_backslash_nil : dispatch '\\' [] = .ok (.Command "", []) := by
  unfold dispatch
  rw [if_neg (by decide), if_neg (by decide), if_neg (by decide), if_neg (by decide),
    if_pos rfl]

theorem dispatch_backslash_cons (n : Char) (rest2 : List Char) :
    dispatch '\\' (n :: rest2) =
      .ok (.Command (String.mk (n :: rest2.takeWhile is_ascii_alphabetic)),
        rest2.dropWhile is_ascii_alphabetic) := by
  unfold dispatch
  rw [if_neg (by decide), if_neg (by decide), if_neg (by decide), if_neg (by decide),
    if_pos rfl]
  simp [collect_command_eq]

theorem dispatch_percent (rest : List Char) :
    dispatch '%' rest =
      .ok (.Comment (String.mk (rest.takeWhile comment_pred)),
        rest.dropWhile comment_pred) := by
  unfold dispatch
  rw [if_neg (by decide), if_neg (by decide), if_neg (by decide), if_neg (by decide),
    if_neg (by decide), if_pos rfl]
  simp [build_comment_eq]

theorem dispatch_hash_nil : dispatch '#' [] = .ok (.Illegal, []) := by
  unfold dispatch
  rw [if_neg (by decide), if_neg (by decide), if_neg (by decide), if_neg (by decide),
    if_neg (by decide), if_neg (by decide), if_pos rfl]

theorem dispatch_hash_nondigit (n : Char) (rest2 : List Char)
    (h : is_ascii_digit n = false) :
    dispatch '#' (n :: rest2) = .ok (.Illegal, rest2) := by
  unfold dispatch
  rw [if_neg (by decide), if_neg (by decide), if_neg (by decide), if_neg (by decide),
    if_neg (by decide), if_neg (by decide), if_pos rfl]
  simp [h]

theorem dispatch_hash_digit (n : Char) (rest2 : List Char)
    (h : is_ascii_digit n = true) :
    dispatch '#' (n :: rest2) =
      (match parse_usize (n :: rest2.takeWhile is_ascii_digit) with
       | some v => .ok (.Arg v, rest2.dropWhile is_ascii_digit)
       | none => .error expectMsg) := by
  unfold dispatch
  rw [if_neg (by decide), if_neg (by decide), if_neg (by decide), if_neg (by decide),
    if_neg (by decide), if_neg (by decide), if_pos rfl]
  simp only [h, if_pos, collect_arg_eq, List.nil_append]
  cases parse_usize (n :: rest2.takeWhile is_ascii_digit) <;> simp

theorem ws_not_special (c : Char) (h : is_whitespace c = true) :
    c ≠ '{' ∧ c ≠ '}' ∧ c ≠ '&' ∧ c ≠ NUL ∧ c ≠ '\\' ∧ c ≠ '%' ∧ c ≠ '#' := by
  refine ⟨?_, ?_, ?_, ?_, ?_, ?_, ?_⟩ <;> (intro hc; subst hc; exact absurd h (by decide))

theorem dispatch_ws (c : Char) (rest : List Char) (h : is_whitespace c = true) :
    dispatch c rest =
      .ok (.Whitespace (String.mk (c :: rest.takeWhile is_whitespace)),
        rest.dropWhile is_whitespace) := by
  obtain ⟨h1, h2, h3, h4, h5, h6, h7⟩ := ws_not_special c h
  unfold dispatch
  rw [if_neg h1, if_neg h2, if_neg h3, if_neg h4, if_neg h5, if_neg h6, if_neg h7,
    if_pos h]
  simp [collect_whitespace_eq]

theorem dispatch_other (c : Char) (rest : List Char)
    (h1 : c ≠ '{') (h2 : c ≠ '}') (h3 : c ≠ '&') (h4 : c ≠ NUL) (h5 : c ≠ '\\')
    (h6 : c ≠ '%') (h7 : c ≠ '#') (h8 : is_whitespace c = false) :
    dispatch c rest = .ok (.Char c, rest) := by
  unfold dispatch
  rw [if_neg h1, if_neg h2, if_neg h3, if_neg h4, if_neg h5, if_neg h6, if_neg h7,
    if_neg (by simp [h8])]

/-- The remainder left by a successful dispatch is a suffix of the dispatched
stream. -/
theorem dispatch_rest_suffix (ch : Char) (rest : List Char) (t : Token)
    (r : List Char) (h : dispatch ch rest = Except.ok (t, r)) :
    ∃ mid, rest = mid ++ r := by
  unfold dispatch at h
  split_ifs at h
  case pos => exact ⟨[], by simp_all⟩
  case pos => exact ⟨[], by simp_all⟩
  case pos => exact ⟨[], by simp_all⟩
  case pos => exact ⟨[], by simp_all⟩
  case pos =>
    -- backslash
    cases rest with
    | nil => simp_all
    | cons n rest2 =>
      simp only [collect_command_eq, List.nil_append, Except.ok.injEq,
        Prod.mk.injEq] at h
      exact ⟨n :: rest2.takeWhile is_ascii_alphabetic, by
        simp [← h.2, List.takeWhile_append_dropWhile]⟩
  case pos =>
    -- percent
    simp only [build_comment_eq, List.nil_append, Except.ok.injEq,
      Prod.mk.injEq] at h
    exact ⟨rest.takeWhile comment_pred, by
      simp [← h.2, List.takeWhile_append_dropWhile]⟩
  case pos =>
    -- hash
    cases rest with
    | nil => simp_all
    | cons n rest2 =>
      by_cases hd : is_ascii_digit n
      · simp only [hd, if_pos, collect_arg_eq, List.nil_append] at h
        cases hp : parse_usize (n :: rest2.takeWhile is_ascii_digit) with
        | none => rw [hp] at h; simp at h
        | some v =>
          rw [hp] at h
          simp only [Except.ok.injEq, Prod.mk.injEq] at h
          exact ⟨n :: rest2.takeWhile is_ascii_digit, by
            simp [← h.2, List.takeWhile_append_dropWhile]⟩
      · simp only [if_neg hd, Except.ok.injEq, Prod.mk.injEq] at h
        exact ⟨[n], by simp [← h.2]⟩
  case pos =>
    -- whitespace
    simp only [collect_whitespace_eq, List.nil_append, Except.ok.injEq,
      Prod.mk.injEq] at h
    exact ⟨rest.takeWhile is_whitespace, by
      simp [← h.2, List.takeWhile_append_dropWhile]⟩
  case neg => exact ⟨[], by simp_all⟩

/-- A successful `next_token` strictly shrinks the stream. -/
theorem next_token_length (cs : List Char) (t : Token) (rest : List Char)
    (h : next_token cs = some (Except.ok (t, rest))) :
    rest.length < cs.length := by
  cases cs with
  | nil => simp [next_token] at h
  | cons ch cs' =>
    simp only [next_token, Option.some.injEq] at h
    obtain ⟨mid, hmid⟩ := dispatch_rest_suffix ch cs' t rest h
    subst hmid
    simp [Nat.lt_succ_iff]

/-- The whole consumed prefix of a successful `next_token` step. -/
theorem next_token_decomp (cs : List Char) (t : Token) (rest : List Char)
    (h : next_token cs = some (Except.ok (t, rest))) :
    ∃ pre, cs = pre ++ rest := by
  cases cs with
  | nil => simp [next_token] at h
  | cons ch cs' =>
    simp only [next_token, Option.some.injEq] at h
    obtain ⟨mid, hmid⟩ := dispatch_rest_suffix ch cs' t rest h
    exact ⟨ch :: mid, by simp [hmid]⟩

theorem lexF_nil : ∀ n, lexF n [] = Except.ok []
  | 0 => rfl
  | _ + 1 => by simp [lexF, next_token]

/-- `lexF` does not depend on the fuel once it covers the stream length. -/
theorem lexF_congr : ∀ (n : Nat) (cs : List Char) (m : Nat),
    cs.length ≤ n → cs.length ≤ m → lexF n cs = lexF m cs
  | 0, cs, m, h0, _ => by
    have : cs = [] := List.eq_nil_of_length_eq_zero (Nat.le_zero.mp h0)
    subst this
    rw [lexF_nil, lexF_nil]
  | n + 1, cs, 0, _, hm => by
    have : cs = [] := List.eq_nil_of_length_eq_zero (Nat.le_zero.mp hm)
    subst this
    rw [lexF_nil, lexF_nil]
  | n + 1, cs, m + 1, hn, hm => by
    show lexF (n + 1) cs = lexF (m + 1) cs
    simp only [lexF]
    cases hnt : next_token cs with
    | none => rfl
    | some r =>
      cases r with
      | error e => rfl
      | ok tr =>
        obtain ⟨t, rest⟩ := tr
        have hlt := next_token_length cs t rest hnt
        have h1 : rest.length ≤ n := Nat.lt_succ_iff.mp (Nat.lt_of_lt_of_le hlt hn)
        have h2 : rest.length ≤ m := Nat.lt_succ_iff.mp (Nat.lt_of_lt_of_le hlt hm)
        dsimp only
        rw [lexF_congr n rest m h1 h2]

theorem lex_nil : lex [] = Except.ok [] := rfl

/-- One unfolding of `lex` at a successful `next_token` step. -/
theorem lex_cons (cs : List Char) (t : Token) (rest : List Char)
    (h : next_token cs = some (Except.ok (t, rest))) :
    lex cs = Except.map (fun ts => t :: ts) (lex rest) := by
  cases cs with
  | nil => simp [next_token] at h
  | cons ch cs' =>
    have hlt := next_token_length _ _ _ h
    show lexF (ch :: cs').length (ch :: cs') = _
    simp only [List.length_cons, lexF, h]
    rw [lexF_congr cs'.length rest rest.length (Nat.lt_succ_iff.mp hlt) (Nat.le_refl _)]
    show (match lex rest with
      | Except.error e => Except.error e
      | Except.ok ts => Except.ok (t :: ts)) = _
    cases lex rest <;> rfl

/-- One unfolding of `lex` at a panicking `next_token` step. -/
theorem lex_error_step (cs : List Char) (e : String)
    (h : next_token cs = some (Except.error e)) : lex cs = Except.error e := by
  cases cs with
  | nil => simp [next_token] at h
  | cons ch cs' =>
    show lexF (ch :: cs').length (ch :: cs') = _
    simp only [List.length_cons, lexF, h]

/-- Inversion: a nonempty successful token stream starts with a successful
`next_token` step. -/
theorem lex_ok_cons (cs : List Char) (t : Token) (ts : List Token)
    (h : lex cs = Except.ok (t :: ts)) :
    ∃ rest, next_token cs = some (Except.ok (t, rest)) ∧ lex rest = Except.ok ts := by
  cases hnt : next_token cs with
  | none =>
    cases cs with
    | nil => rw [lex_nil] at h; simp at h
    | cons ch cs' => simp [next_token] at hnt
  | some r =>
    cases r with
    | error e => rw [lex_error_step cs e hnt] at h; simp at h
    | ok tr =>
      obtain ⟨t', rest⟩ := tr
      rw [lex_cons cs t' rest hnt] at h
      cases hr : lex rest with
      | error e => rw [hr] at h; simp [Except.map] at h
      | ok ts' =>
        rw [hr] at h
        simp only [Except.map, Except.ok.injEq, List.cons.injEq] at h
        obtain ⟨h1, h2⟩ := h
        subst h1
        subst h2
        exact ⟨rest, rfl, hr⟩

/-- Inversion: only the whitespace branch produces a `Whitespace` token. -/
theorem dispatch_ws_inv (ch : Char) (rest : List Char) (s : String)
    (r : List Char) (h : dispatch ch rest = Except.ok (Token.Whitespace s, r)) :
    is_whitespace ch = true ∧
      s = String.mk (ch :: rest.takeWhile is_whitespace) ∧
      r = rest.dropWhile is_whitespace := by
  unfold dispatch at h
  split_ifs at h with h1 h2 h3 h4 h5 h6 h7 h8
  · simp at h
  · simp at h
  · simp at h
  · simp at h
  · cases rest with
    | nil => simp at h
    | cons n rest2 => simp [collect_command_eq] at h
  · simp [build_comment_eq] at h
  · cases rest with
    | nil => simp at h
    | cons n rest2 =>
      by_cases hd : is_ascii_digit n
      · simp only [hd, if_pos, collect_arg_eq, List.nil_append] at h
        cases hp : parse_usize (n :: rest2.takeWhile is_ascii_digit) <;>
          rw [hp] at h <;> simp at h
      · simp [if_neg hd] at h
  · simp only [collect_whitespace_eq, List.nil_append, Except.ok.injEq,
      Prod.mk.injEq, Token.Whitespace.injEq] at h
    exact ⟨h8, h.1.symm, h.2.symm⟩
  · simp at h

/-- Inversion: only the `'%'` branch produces a `Comment` token. -/
theorem dispatch_comment_inv (ch : Char) (rest : List Char) (s : String)
    (r : List Char) (h : dispatch ch rest = Except.ok (Token.Comment s, r)) :
    ch = '%' ∧ s = String.mk (rest.takeWhile comment_pred) ∧
      r = rest.dropWhile comment_pred := by
  unfold dispatch at h
  split_ifs at h with h1 h2 h3 h4 h5 h6 h7 h8
  · simp at h
  · simp at h
  · simp at h
  · simp at h
  · cases rest with
    | nil => simp at h
    | cons n rest2 => simp [collect_command_eq] at h
  · simp only [build_comment_eq, List.nil_append, Except.ok.injEq,
      Prod.mk.injEq, Token.Comment.injEq] at h
    exact ⟨h6, h.1.symm, h.2.symm⟩
  · cases rest with
    | nil => simp at h
    | cons n rest2 =>
      by_cases hd : is_ascii_digit n
      · simp only [hd, if_pos, collect_arg_eq, List.nil_append] at h
        cases hp : parse_usize (n :: rest2.takeWhile is_ascii_digit) <;>
          rw [hp] at h <;> simp at h
      · simp [if_neg hd] at h
  · simp [collect_whitespace_eq] at h
  · simp at h

/-- Inversion: only the `'#'` branch produces an `Illegal` token, and only
when `'#'` is last or followed by a non-digit. -/
theorem dispatch_illegal_inv (ch : Char) (rest : List Char)
    (r : List Char) (h : dispatch ch rest = Except.ok (Token.Illegal, r)) :
    ch = '#' ∧ (rest = [] ∧ r = [] ∨
      ∃ n t2, rest = n :: t2 ∧ is_ascii_digit n = false ∧ r = t2) := by
  unfold dispatch at h
  split_ifs at h with h1 h2 h3 h4 h5 h6 h7 h8
  · simp at h
  · simp at h
  · simp at h
  · simp at h
  · cases rest with
    | nil => simp at h
    | cons n rest2 => simp [collect_command_eq] at h
  · simp [build_comment_eq] at h
  · refine ⟨h7, ?_⟩
    cases rest with
    | nil => simp only [Except.ok.injEq, Prod.mk.injEq] at h; exact Or.inl ⟨rfl, h.2.symm⟩
    | cons n rest2 =>
      by_cases hd : is_ascii_digit n
      · simp only [hd, if_pos, collect_arg_eq, List.nil_append] at h
        cases hp : parse_usize (n :: rest2.takeWhile is_ascii_digit) <;>
          rw [hp] at h <;> simp at h
      · simp only [if_neg hd, Except.ok.injEq, Prod.mk.injEq] at h
        exact Or.inr ⟨n, rest2, rfl, Bool.eq_false_iff.mpr hd, h.2.symm⟩
  · simp [collect_whitespace_eq] at h
  · simp at h

/-- Inversion: only the NUL branch produces `Eof`. -/
theorem dispatch_eof_inv (ch : Char) (rest : List Char)
    (r : List Char) (h : dispatch ch rest = Except.ok (Token.Eof, r)) :
    ch = NUL ∧ r = rest := by
  unfold dispatch at h
  split_ifs at h with h1 h2 h3 h4 h5 h6 h7 h8
  · simp at h
  · simp at h
  · simp at h
  · simp only [Except.ok.injEq, Prod.mk.injEq] at h
    exact ⟨h4, h.2.symm⟩
  · cases rest with
    | nil => simp at h
    | cons n rest2 => simp [collect_command_eq] at h
  · simp [build_comment_eq] at h
  · cases rest with
    | nil => simp at h
    | cons n rest2 =>
      by_cases hd : is_ascii_digit n
      · simp only [hd, if_pos, collect_arg_eq, List.nil_append] at h
        cases hp : parse_usize (n :: rest2.takeWhile is_ascii_digit) <;>
          rw [hp] at h <;> simp at h
      · simp [if_neg hd] at h
  · simp [collect_whitespace_eq] at h
  · simp at h

/-- Inversion: the only panic is the digit-run parse in the `'#'` branch. -/
theorem dispatch_error_inv (ch : Char) (rest : List Char) (e : String)
    (h : dispatch ch rest = Except.error e) :
    ch = '#' ∧ e = expectMsg ∧
      ∃ n rest2, rest = n :: rest2 ∧ is_ascii_digit n = true ∧
        parse_usize (n :: rest2.takeWhile is_ascii_digit) = none := by
  unfold dispatch at h
  split_ifs at h with h1 h2 h3 h4 h5 h6 h7 h8
  · cases rest with
    | nil => exact Except.noConfusion h
    | cons n rest2 => exact Except.noConfusion h
  · refine ⟨h7, ?_⟩
    cases rest with
    | nil => exact Except.noConfusion h
    | cons n rest2 =>
      by_cases hd : is_ascii_digit n
      · simp only [hd, if_pos, collect_arg_eq, List.nil_append] at h
        cases hp : parse_usize (n :: rest2.takeWhile is_ascii_digit) with
        | none =>
          rw [hp] at h
          simp only [Except.error.injEq] at h
          exact ⟨h.symm, n, rest2, rfl, hd, hp⟩
        | some v => rw [hp] at h; exact Except.noConfusion h
      · simp [if_neg hd] at h

theorem dropWhile_head_not (p : Char → Bool) (l : List Char) (c : Char)
    (r : List Char) (h : l.dropWhile p = c :: r) : p c = false := by
  have := List.head?_dropWhile_not p l
  rw [h] at this
  simpa using this

theorem buffer_all_digits (n : Char) (cs : List Char)
    (hd : is_ascii_digit n = true) :
    (n :: cs.takeWhile is_ascii_digit).all is_ascii_digit = true := by
  rw [List.all_eq_true]
  intro c hc
  rcases List.mem_cons.mp hc with h | h
  · exact h ▸ hd
  · exact List.mem_takeWhile_imp h

theorem parse_usize_some (s : List Char) (h1 : s ≠ [])
    (h2 : s.all is_ascii_digit = true) (h3 : decimalValue s ≤ USIZE_MAX) :
    parse_usize s = some (decimalValue s) := by
  rw [parse_usize, if_pos ⟨h1, h2, h3⟩]

theorem parse_usize_overflow (s : List Char) (h3 : USIZE_MAX < decimalValue s) :
    parse_usize s = none := by
  rw [parse_usize, if_neg]
  intro hc
  exact absurd hc.2.2 (Nat.not_le.mpr h3)

theorem parse_usize_none_overflow (s : List Char) (h1 : s ≠ [])
    (h2 : s.all is_ascii_digit = true) (h : parse_usize s = none) :
    USIZE_MAX < decimalValue s := by
  by_contra hc
  rw [parse_usize_some s h1 h2 (Nat.not_lt.mp hc)] at h
  exact Option.noConfusion h

theorem isWsTok_inv (t : Token) (h : t.isWsTok = true) :
    ∃ s, t = Token.Whitespace s := by
  cases t <;> simp [Token.isWsTok] at h ⊢

theorem next_token_ws (c : Char) (cs : List Char) (h : is_whitespace c = true) :
    next_token (c :: cs) =
      some (Except.ok (Token.Whitespace (String.mk (c :: cs.takeWhile is_whitespace)),
        cs.dropWhile is_whitespace)) := by
  simp [next_token, dispatch_ws c cs h]

theorem next_token_ws_inv (cs : List Char) (s : String) (rest : List Char)
    (h : next_token cs = some (Except.ok (Token.Whitespace s, rest))) :
    ∃ c cs', cs = c :: cs' ∧ is_whitespace c = true ∧
      rest = cs'.dropWhile is_whitespace := by
  cases cs with
  | nil => simp [next_token] at h
  | cons c cs' =>
    simp only [next_token, Option.some.injEq] at h
    obtain ⟨hw, _, hr⟩ := dispatch_ws_inv c cs' s rest h
    exact ⟨c, cs', rfl, hw, hr⟩

theorem next_token_none_iff (cs : List Char) :
    next_token cs = none ↔ cs = [] := by
  cases cs <;> simp [next_token]

/-- No two adjacent tokens of a successful stream are both `Whitespace`. -/
theorem lex_chain_aux : ∀ (n : Nat) (cs : List Char), cs.length ≤ n →
    ∀ ts, lex cs = Except.ok ts →
    List.Chain' (fun a b => ¬(a.isWsTok = true ∧ b.isWsTok = true)) ts := by
  intro n
  induction n with
  | zero =>
    intro cs hlen ts h
    have hnil : cs = [] := List.eq_nil_of_length_eq_zero (Nat.le_zero.mp hlen)
    subst hnil
    rw [lex_nil] at h
    cases h
    exact List.chain'_nil
  | succ n ih =>
    intro cs hlen ts h
    cases ts with
    | nil => exact List.chain'_nil
    | cons t ts' =>
      obtain ⟨rest, hnt, hrest⟩ := lex_ok_cons cs t ts' h
      have hlen' : rest.length ≤ n :=
        Nat.lt_succ_iff.mp (Nat.lt_of_lt_of_le (next_token_length _ _ _ hnt) hlen)
      have hchain := ih rest hlen' ts' hrest
      rw [List.chain'_cons']
      refine ⟨?_, hchain⟩
      intro t2 ht2 hw
      obtain ⟨hw1, hw2⟩ := hw
      obtain ⟨s, rfl⟩ := isWsTok_inv t hw1
      obtain ⟨c, cs', hceq, hwc, hrest_eq⟩ := next_token_ws_inv _ _ _ hnt
      cases ts' with
      | nil => simp at ht2
      | cons t2' ts'' =>
        simp only [List.head?_cons, Option.mem_def, Option.some.injEq] at ht2
        subst ht2
        obtain ⟨rest2, hnt2, _⟩ := lex_ok_cons rest t2' ts'' hrest
        obtain ⟨s2, rfl⟩ := isWsTok_inv _ hw2
        obtain ⟨c2, cs2', hrw, hwc2, _⟩ := next_token_ws_inv _ _ _ hnt2
        rw [hrest_eq] at hrw
        have hfalse := dropWhile_head_not is_whitespace cs' c2 cs2' hrw
        rw [hwc2] at hfalse
        exact Bool.noConfusion hfalse

/-- Every `Comment` token of a successful stream satisfies `comment_pred`
on all its characters. -/
theorem lex_comment_aux : ∀ (n : Nat) (cs : List Char), cs.length ≤ n →
    ∀ ts s, lex cs = Except.ok ts → Token.Comment s ∈ ts →
    ∀ c ∈ s.toList, comment_pred c = true := by
  intro n
  induction n with
  | zero =>
    intro cs hlen ts s h hmem
    have hnil : cs = [] := List.eq_nil_of_length_eq_zero (Nat.le_zero.mp hlen)
    subst hnil
    rw [lex_nil] at h
    cases h
    simp at hmem
  | succ n ih =>
    intro cs hlen ts s h hmem
    cases ts with
    | nil => simp at hmem
    | cons t ts' =>
      obtain ⟨rest, hnt, hrest⟩ := lex_ok_cons cs t ts' h
      have hlen' : rest.length ≤ n :=
        Nat.lt_succ_iff.mp (Nat.lt_of_lt_of_le (next_token_length _ _ _ hnt) hlen)
      rcases List.mem_cons.mp hmem with heq | hmem'
      · subst heq
        cases cs with
        | nil => simp [next_token] at hnt
        | cons ch cs' =>
          simp only [next_token, Option.some.injEq] at hnt
          obtain ⟨_, hs, _⟩ := dispatch_comment_inv ch cs' s rest hnt
          intro c hc
          rw [hs] at hc
          exact List.mem_takeWhile_imp hc
      · exact ih rest hlen' ts' s hrest hmem'

/-- A successful stream has at most one token per input character. -/
theorem lex_length_aux : ∀ (n : Nat) (cs : List Char), cs.length ≤ n →
    ∀ ts, lex cs = Except.ok ts → ts.length ≤ cs.length := by
  intro n
  induction n with
  | zero =>
    intro cs hlen ts h
    have hnil : cs = [] := List.eq_nil_of_length_eq_zero (Nat.le_zero.mp hlen)
    subst hnil
    rw [lex_nil] at h
    cases h
    exact Nat.le_refl 0
  | succ n ih =>
    intro cs hlen ts h
    cases ts with
    | nil => exact Nat.zero_le _
    | cons t ts' =>
      obtain ⟨rest, hnt, hrest⟩ := lex_ok_cons cs t ts' h
      have hlt := next_token_length _ _ _ hnt
      have hlen' : rest.length ≤ n := Nat.lt_succ_iff.mp (Nat.lt_of_lt_of_le hlt hlen)
      have := ih rest hlen' ts' hrest
      simp only [List.length_cons]
      omega

/-- A panic arises only from a `'#'`-triggered digit run whose value
overflows `usize`. -/
theorem lex_error_aux : ∀ (n : Nat) (cs : List Char), cs.length ≤ n →
    ∀ e, lex cs = Except.error e →
    ∃ pre run rest2, run ≠ [] ∧ run.all is_ascii_digit = true ∧
      USIZE_MAX < decimalValue run ∧ cs = pre ++ '#' :: (run ++ rest2) ∧
      e = expectMsg := by
  intro n
  induction n with
  | zero =>
    intro cs hlen e h
    have hnil : cs = [] := List.eq_nil_of_length_eq_zero (Nat.le_zero.mp hlen)
    subst hnil
    rw [lex_nil] at h
    exact Except.noConfusion h
  | succ n ih =>
    intro cs hlen e h
    cases hnt : next_token cs with
    | none =>
      rw [next_token_none_iff] at hnt
      subst hnt
      rw [lex_nil] at h
      exact Except.noConfusion h
    | some r =>
      cases r with
      | error e' =>
        rw [lex_error_step cs e' hnt] at h
        injection h with he
        subst he
        cases cs with
        | nil => simp [next_token] at hnt
        | cons ch cs' =>
          simp only [next_token, Option.some.injEq] at hnt
          obtain ⟨hch, hmsg, m, rest2, hrest, hdig, hparse⟩ :=
            dispatch_error_inv ch cs' e' hnt
          subst hch
          subst hrest
          refine ⟨[], m :: rest2.takeWhile is_ascii_digit,
            rest2.dropWhile is_ascii_digit, by simp, buffer_all_digits m rest2 hdig,
            ?_, ?_, hmsg⟩
          · exact parse_usize_none_overflow _ (by simp)
              (buffer_all_digits m rest2 hdig) hparse
          · simp [List.takeWhile_append_dropWhile]
      | ok tr =>
        obtain ⟨t, rest⟩ := tr
        rw [lex_cons cs t rest hnt] at h
        cases hr : lex rest with
        | ok ts => rw [hr] at h; exact Except.noConfusion h
        | error e'' =>
          rw [hr] at h
          injection h with he
          subst he
          have hlt := next_token_length _ _ _ hnt
          have hlen' : rest.length ≤ n := Nat.lt_succ_iff.mp (Nat.lt_of_lt_of_le hlt hlen)
          obtain ⟨pre', run, rest2, hne, hall, hov, hdecomp, hmsg⟩ := ih rest hlen' e'' hr
          obtain ⟨pre0, hpre0⟩ := next_token_decomp cs t rest hnt
          refine ⟨pre0 ++ pre', run, rest2, hne, hall, hov, ?_, hmsg⟩
          rw [hpre0, hdecomp]
          simp

/-- Past the highlighted line, the loop just reprints lines. -/
theorem highlightGo_past (lin col : Nat) (msg : List Char) :
    ∀ (ls : List (List Char)) (i : Nat), lin < i →
    highlightGo lin col msg i ls = joinLines ls
  | [], _, _ => rfl
  | line :: ls, i, h => by
    simp only [highlightGo, joinLines, List.foldr_cons]
    rw [if_neg (by omega)]
    simp only [List.nil_append]
    rw [highlightGo_past lin col msg ls (i + 1) (by omega)]
    rfl

/-- The loop inserts the caret line right after line number `lin`. -/
theorem highlightGo_at (col : Nat) (msg : List Char) :
    ∀ (ls : List (List Char)) (i lin : Nat), i ≤ lin → lin < i + ls.length →
    highlightGo lin col msg i ls =
      joinLines (ls.take (lin - i + 1)) ++
        (List.replicate (col - 1) ' ' ++ '^' :: ' ' :: (msg ++ ['\n'])) ++
        joinLines (ls.drop (lin - i + 1))
  | [], i, lin, hle, hlt => by simp at hlt; omega
  | line :: ls, i, lin, hle, hlt => by
    by_cases heq : i = lin
    · subst heq
      simp only [highlightGo, if_pos rfl, Nat.sub_self, Nat.zero_add,
        List.take_succ_cons, List.take_zero, List.drop_succ_cons, List.drop_zero]
      rw [highlightGo_past i col msg ls (i + 1) (by omega)]
      simp [joinLines]
    · have hlt' : i < lin := Nat.lt_of_le_of_ne hle heq
      have hk : lin - i + 1 = (lin - (i + 1) + 1) + 1 := by omega
      simp only [highlightGo, if_neg (by omega : ¬i = lin), List.nil_append]
      rw [highlightGo_at col msg ls (i + 1) lin (by omega)
        (by simp at hlt ⊢; omega)]
      rw [hk, List.take_succ_cons, List.drop_succ_cons]
      simp [joinLines]

theorem utilPosList_length : ∀ (cs : List Char) (lin col : Nat),
    (utilPosList cs lin col).length = cs.length
  | [], _, _ => rfl
  | c :: cs, lin, col => by
    simp [utilPosList, utilPosList_length cs]

theorem lexerPosList_length : ∀ (cs : List Char) (x y : Nat),
    (lexerPosList cs x y).length = cs.length
  | [], _, _ => rfl
  | c :: cs, x, y => by
    simp [lexerPosList, lexerPosList_length cs]

/-- The `lexer.rs` tracker (with `x` the column and `y` the line) realizes
the conventional evolution: on `"a\nb"` the character `b` is at column 1,
line 2. -/
theorem lexerPosChars_convention :
    lexerPosChars ['a', '\n', 'b'] = [('a', 1, 1), ('\n', 2, 1), ('b', 1, 2)] := rfl

/-- C1: the `util.rs` `PositionTracker` violates the claimed evolution: on
input `"a\nb"`, the character `b` is reported at `Span` line 1, column 2,
whereas the claim (and the `Span` semantics used by `Display` and
`highlight_msg_in_code`) requires line 2, column 1 — the `lin`/`col` roles
are swapped relative to the `lexer.rs` revision. -/
theorem C1_util_poschars_swaps_line_col :
    utilPosChars ['a', '\n', 'b'] =
      [('a', ⟨1, 1⟩), ('\n', ⟨2, 1⟩), ('b', ⟨1, 2⟩)] ∧
    Span.mk 1 2 ≠ Span.mk 2 1 :=
  ⟨rfl, by decide⟩

/-- C2 counterexample: on `\%a` the lexer produces `Command "%a"`, not the
claimed `Control "%"` — `collect_command` keeps consuming letters even when
the first character after the backslash is not a letter. -/
theorem C2_counterexample :
    lex ['\\', '%', 'a'] = Except.ok [Token.Command "%a"] ∧
      Token.Command "%a" ≠ Token.Command "%" :=
  ⟨rfl, by decide⟩

/-- C2 (amended): a lone backslash yields `Command ""`; otherwise the token
is `Command` of the consumed character `n` followed by the maximal run of
ASCII-alphabetic characters after it (whether or not `n` itself is a
letter). -/
theorem C2_backslash_dispatch :
    (next_token ['\\'] = some (Except.ok (Token.Command "", []))) ∧
    (∀ n cs, next_token ('\\' :: n :: cs) =
      some (Except.ok
        (Token.Command (String.mk (n :: cs.takeWhile is_ascii_alphabetic)),
          cs.dropWhile is_ascii_alphabetic))) := by
  refine ⟨rfl, fun n cs => ?_⟩
  simp [next_token, dispatch_backslash_cons]

/-- C3: dispatch on `#` — `Illegal` when `#` is last or followed by a
non-digit; `Arg` of the base-10 value of the maximal digit run otherwise
(provided it fits in `usize`); and `Illegal` arises in no other way. -/
theorem C3_hash_dispatch :
    (next_token ['#'] = some (Except.ok (Token.Illegal, []))) ∧
    (∀ n cs, is_ascii_digit n = false →
      next_token ('#' :: n :: cs) = some (Except.ok (Token.Illegal, cs))) ∧
    (∀ n cs, is_ascii_digit n = true →
      decimalValue (n :: cs.takeWhile is_ascii_digit) ≤ USIZE_MAX →
      next_token ('#' :: n :: cs) =
        some (Except.ok
          (Token.Arg (decimalValue (n :: cs.takeWhile is_ascii_digit)),
            cs.dropWhile is_ascii_digit))) ∧
    (∀ cs t rest, next_token cs = some (Except.ok (t, rest)) →
      t = Token.Illegal →
      ∃ tail, cs = '#' :: tail ∧
        (tail = [] ∧ rest = [] ∨
          ∃ n t2, tail = n :: t2 ∧ is_ascii_digit n = false ∧ rest = t2)) := by
  refine ⟨rfl, ?_, ?_, ?_⟩
  · intro n cs h
    simp [next_token, dispatch_hash_nondigit n cs h]
  · intro n cs h hle
    simp only [next_token, Option.some.injEq, dispatch_hash_digit n cs h]
    rw [parse_usize_some _ (by simp) (buffer_all_digits n cs h) hle]
  · intro cs t rest h ht
    subst ht
    cases cs with
    | nil => simp [next_token] at h
    | cons ch cs' =>
      simp only [next_token, Option.some.injEq] at h
      obtain ⟨hch, hrest⟩ := dispatch_illegal_inv ch cs' rest h
      exact ⟨cs', by rw [hch], hrest⟩

theorem C3_hash_dispatch_witness :
    (next_token ['#', 'x'] = some (Except.ok (Token.Illegal, []))) ∧
    (next_token ['#', '4', '2'] =
      some (Except.ok
        (Token.Arg (decimalValue ('4' :: ['2'].takeWhile is_ascii_digit)),
          ['2'].dropWhile is_ascii_digit))) ∧
    (∃ tail, ['#', 'x'] = '#' :: tail ∧
      (tail = [] ∧ ([] : List Char) = [] ∨
        ∃ n t2, tail = n :: t2 ∧ is_ascii_digit n = false ∧ ([] : List Char) = t2)) :=
  ⟨C3_hash_dispatch.2.1 'x' [] (by decide),
   C3_hash_dispatch.2.2.1 '4' ['2'] (by decide) (by decide),
   C3_hash_dispatch.2.2.2 ['#', 'x'] Token.Illegal []
     (C3_hash_dispatch.2.1 'x' [] (by decide)) rfl⟩

/-- C4: `Eof` is produced exactly by consuming a literal NUL; stream
exhaustion yields `none`, not `Eof`; and lexing continues past an embedded
NUL. -/
theorem C4_eof_nul :
    (next_token [] = none) ∧
    (∀ cs, next_token (NUL :: cs) = some (Except.ok (Token.Eof, cs))) ∧
    (∀ cs, lex (NUL :: cs) = Except.map (fun ts => Token.Eof :: ts) (lex cs)) ∧
    (∀ cs t rest, next_token cs = some (Except.ok (t, rest)) → t = Token.Eof →
      cs = NUL :: rest) := by
  have h2 : ∀ cs, next_token (NUL :: cs) = some (Except.ok (Token.Eof, cs)) := by
    intro cs
    simp only [next_token, Option.some.injEq]
    unfold dispatch
    rw [if_neg (by decide), if_neg (by decide), if_neg (by decide), if_pos rfl]
  refine ⟨rfl, h2, ?_, ?_⟩
  · intro cs
    exact lex_cons (NUL :: cs) Token.Eof cs (h2 cs)
  · intro cs t rest h ht
    subst ht
    cases cs with
    | nil => simp [next_token] at h
    | cons ch cs' =>
      simp only [next_token, Option.some.injEq] at h
      obtain ⟨hch, hrest⟩ := dispatch_eof_inv ch cs' rest h
      rw [hch, hrest]

theorem C4_eof_nul_witness :
    (next_token [NUL, 'a'] = some (Except.ok (Token.Eof, ['a']))) ∧
    (lex [NUL, 'a'] = Except.map (fun ts => Token.Eof :: ts) (lex ['a'])) ∧
    ([NUL, 'a'] : List Char) = NUL :: ['a'] :=
  ⟨C4_eof_nul.2.1 ['a'], C4_eof_nul.2.2.1 ['a'],
   C4_eof_nul.2.2.2 [NUL, 'a'] Token.Eof ['a'] (C4_eof_nul.2.1 ['a']) rfl⟩

/-- C5 counterexample: in `"# "` the sole maximal whitespace run `" "` is
swallowed by the `#` branch and yields no `Whitespace` token at all, so not
every maximal whitespace run of the input appears as a `Whitespace` token. -/
theorem C5_counterexample :
    lex ['#', ' '] = Except.ok [Token.Illegal] ∧
      Token.Whitespace " " ∉ [Token.Illegal] :=
  ⟨rfl, by decide⟩

/-- C5 (amended): no two adjacent tokens are both `Whitespace`, and whenever
the lexer dispatches on a whitespace character the resulting token is
`Whitespace` of the entire maximal whitespace run starting there, verbatim. -/
theorem C5_whitespace_maximality :
    (∀ cs ts, lex cs = Except.ok ts →
      List.Chain' (fun a b => ¬(a.isWsTok = true ∧ b.isWsTok = true)) ts) ∧
    (∀ c cs, is_whitespace c = true →
      next_token (c :: cs) =
        some (Except.ok
          (Token.Whitespace (String.mk (c :: cs.takeWhile is_whitespace)),
            cs.dropWhile is_whitespace))) :=
  ⟨fun cs ts h => lex_chain_aux cs.length cs (Nat.le_refl _) ts h,
   next_token_ws⟩

theorem C5_whitespace_maximality_witness :
    List.Chain' (fun a b => ¬(a.isWsTok = true ∧ b.isWsTok = true))
      [Token.Char 'a', Token.Whitespace " "] ∧
    next_token [' ', ' ', 'b'] =
      some (Except.ok
        (Token.Whitespace (String.mk (' ' :: [' ', 'b'].takeWhile is_whitespace)),
          [' ', 'b'].dropWhile is_whitespace)) :=
  ⟨C5_whitespace_maximality.1 ['a', ' '] [Token.Char 'a', Token.Whitespace " "] rfl,
   C5_whitespace_maximality.2 ' ' [' ', 'b'] (by decide)⟩

/-- C6: the text of a `Comment` token is exactly the characters between the
triggering `%` and the next newline, NUL, or end of input (delimiters
excluded), and hence never contains `'\n'` or NUL. -/
theorem C6_comment_exclusivity :
    (∀ cs, next_token ('%' :: cs) =
      some (Except.ok
        (Token.Comment (String.mk (cs.takeWhile comment_pred)),
          cs.dropWhile comment_pred))) ∧
    (∀ cs ts s, lex cs = Except.ok ts → Token.Comment s ∈ ts →
      ∀ c ∈ s.toList, c ≠ '\n' ∧ c ≠ NUL) := by
  constructor
  · intro cs
    simp [next_token, dispatch_percent]
  · intro cs ts s h hmem c hc
    have hp := lex_comment_aux cs.length cs (Nat.le_refl _) ts s h hmem c hc
    simpa [comment_pred, Bool.and_eq_true, decide_eq_true_eq] using hp

theorem C6_comment_exclusivity_witness :
    ('a' ≠ '\n' ∧ 'a' ≠ NUL) :=
  C6_comment_exclusivity.2 ['%', 'a'] [Token.Comment "a"] "a" rfl
    (by decide) 'a' (by decide)

/-- C7 counterexample: the lexer can fault — on `#` followed by twenty
nines, the digit run overflows `usize` and the `expect` in `collect_arg`
panics. -/
theorem C7_counterexample :
    lex ('#' :: "99999999999999999999".toList) = Except.error expectMsg := rfl

/-- C7 (amended): every successful token stream is finite (at most one token
per character), and the only possible fault is the `collect_arg` panic on a
`#`-triggered digit run whose value exceeds `usize`. -/
theorem C7_termination_and_faults :
    (∀ cs ts, lex cs = Except.ok ts → ts.length ≤ cs.length) ∧
    (∀ cs e, lex cs = Except.error e →
      ∃ pre run rest2, run ≠ [] ∧ run.all is_ascii_digit = true ∧
        USIZE_MAX < decimalValue run ∧ cs = pre ++ '#' :: (run ++ rest2) ∧
        e = expectMsg) :=
  ⟨fun cs ts h => lex_length_aux cs.length cs (Nat.le_refl _) ts h,
   fun cs e h => lex_error_aux cs.length cs (Nat.le_refl _) e h⟩

theorem C7_termination_and_faults_witness :
    ([Token.Char 'a'].length ≤ (['a'] : List Char).length) ∧
    (∃ pre run rest2, run ≠ [] ∧ run.all is_ascii_digit = true ∧
      USIZE_MAX < decimalValue run ∧
      ('#' :: "20000000000000000000".toList : List Char) =
        pre ++ '#' :: (run ++ rest2) ∧
      expectMsg = expectMsg) :=
  ⟨C7_termination_and_faults.1 ['a'] [Token.Char 'a'] rfl,
   C7_termination_and_faults.2 ('#' :: "20000000000000000000".toList) expectMsg rfl⟩

/-- C8 counterexample: the parse-failure branch of `collect_arg` is
reachable — on `#18446744073709551616` the buffer is non-empty and all ASCII
digits, yet the parse fails (usize overflow) and the fatal path is taken. -/
theorem C8_counterexample :
    lex ('#' :: "18446744073709551616".toList) = Except.error expectMsg ∧
    "18446744073709551616".toList ≠ [] ∧
    "18446744073709551616".toList.all is_ascii_digit = true :=
  ⟨rfl, by decide, by decide⟩

/-- C8 (amended): whenever `collect_arg` attempts the parse, the buffer is
non-empty and all ASCII digits; the parse succeeds exactly when the value
fits in `usize`, so the failure branch is reachable only by overflow. -/
theorem C8_parse_precondition (n : Char) (cs : List Char)
    (hd : is_ascii_digit n = true) :
    (n :: cs.takeWhile is_ascii_digit) ≠ [] ∧
    (n :: cs.takeWhile is_ascii_digit).all is_ascii_digit = true ∧
    collect_arg n [] cs =
      (parse_usize (n :: cs.takeWhile is_ascii_digit),
        cs.dropWhile is_ascii_digit) ∧
    (decimalValue (n :: cs.takeWhile is_ascii_digit) ≤ USIZE_MAX →
      parse_usize (n :: cs.takeWhile is_ascii_digit) =
        some (decimalValue (n :: cs.takeWhile is_ascii_digit))) ∧
    (USIZE_MAX < decimalValue (n :: cs.takeWhile is_ascii_digit) →
      parse_usize (n :: cs.takeWhile is_ascii_digit) = none) := by
  refine ⟨by simp, buffer_all_digits n cs hd, ?_, ?_, ?_⟩
  · simpa using collect_arg_eq cs n []
  · exact parse_usize_some _ (by simp) (buffer_all_digits n cs hd)
  · exact parse_usize_overflow _

theorem C8_parse_precondition_witness :
    is_ascii_digit '7' = true ∧
    parse_usize ('7' :: ([] : List Char).takeWhile is_ascii_digit) =
      some (decimalValue ('7' :: ([] : List Char).takeWhile is_ascii_digit)) :=
  ⟨by decide, (C8_parse_precondition '7' [] (by decide)).2.2.2.1 (by decide)⟩

/-- C9: the diagnostic renderer prints every line followed by a newline and,
immediately after line number `lin`, one extra line of `col - 1` spaces, a
caret, a space, and the message. -/
theorem C9_highlight_rendering (code msg : List Char) (lin col : Nat)
    (h0 : 1 ≤ col) (h1 : 1 ≤ lin) (h2 : lin ≤ (rustLines code).length) :
    highlight_msg_in_code ⟨lin, col⟩ code msg =
      joinLines ((rustLines code).take lin) ++
        (List.replicate (col - 1) ' ' ++ '^' :: ' ' :: (msg ++ ['\n'])) ++
        joinLines ((rustLines code).drop lin) := by
  unfold highlight_msg_in_code
  rw [highlightGo_at col msg (rustLines code) 1 lin h1 (by omega)]
  have hl : lin - 1 + 1 = lin := by omega
  rw [hl]

theorem C9_highlight_rendering_witness :
    (1 ≤ 30 ∧ 1 ≤ 2 ∧ 2 ≤ (rustLines "ab\ncd".toList).length) ∧
    highlight_msg_in_code ⟨2, 30⟩ "ab\ncd".toList "boom".toList =
      joinLines ((rustLines "ab\ncd".toList).take 2) ++
        (List.replicate (30 - 1) ' ' ++ '^' :: ' ' :: ("boom".toList ++ ['\n'])) ++
        joinLines ((rustLines "ab\ncd".toList).drop 2) :=
  ⟨⟨by decide, by decide, by decide⟩,
   C9_highlight_rendering "ab\ncd".toList "boom".toList 2 30 (by decide)
     (by decide) (by decide)⟩

/-- C10 counterexample: `PosChars` does not forward the size hint of its source —
for a source with known hint `(5, some 5)` it still reports the Rust default
`(0, none)`, so the lower bound is not 1 even though the source is known to
be non-empty. -/
theorem C10_counterexample :
    posCharsSizeHint (5, some 5) = (0, none) ∧
    posCharsSizeHint (5, some 5) ≠ (5, some 5) ∧
    (posCharsSizeHint (5, some 5)).1 ≠ 1 :=
  ⟨rfl, by decide, by decide⟩

/-- C10 (amended): the tracker never fails (one positioned character per
source character), reports the default hint `(0, none)` regardless of its
source, and it is `Lexer::size_hint` that reports lower bound 0 or 1
according to whether the lower bound of the buffered stream is 0, forwarding the
upper bound. -/
theorem C10_size_hint_behavior :
    (∀ h, posCharsSizeHint h = (0, none)) ∧
    (∀ cs, (utilPosChars cs).length = cs.length ∧
      (lexerPosChars cs).length = cs.length) ∧
    (∀ mn mx, (lexerSizeHint (mn, mx)).2 = mx ∧
      ((lexerSizeHint (mn, mx)).1 = 0 ∨ (lexerSizeHint (mn, mx)).1 = 1) ∧
      ((lexerSizeHint (mn, mx)).1 = 0 ↔ mn = 0)) := by
  refine ⟨fun h => rfl, fun cs => ⟨utilPosList_length cs 1 1, lexerPosList_length cs 1 1⟩, ?_⟩
  intro mn mx
  by_cases h : mn = 0 <;> simp [lexerSizeHint, h]
